import Mathlib

/-
  Verification of the QuickFAST core: the PresenceMap codec
  (src/Codecs/PresenceMap.cpp) and the multicast packet receiver
  (src/Codecs/MulticastReceiver.h), embedded shallowly.

  Bytes are modelled as Nat (values < 256 where the code guarantees it);
  the presence-map byte buffer is a total function Nat → Nat that is zero
  wherever the C++ buffer is zero-filled, together with an explicit
  byteCapacity.  The sequential accessors setNextField / checkNextField and
  the constants live in PresenceMap.h, which is not part of the sources at
  hand; those are modelled from the spec and marked as such.
-/

set_option maxRecDepth 4000

namespace QuickFAST

/-- Modelled from the spec: the constants of the missing Constants.h /
PresenceMap.h — the stop bit 0x80 set on the last encoded byte. -/
def stopBit : Nat := 128

/-- Modelled from the spec: the initial cursor mask 0x40, the high data bit. -/
def startByteMask : Nat := 64

/-- Modelled from the spec: the mask 0x7F covering the seven data bits. -/
def dataBits : Nat := 127

/-- Modelled from the spec: the small fixed inline capacity of the missing
PresenceMap.h ("a small fixed inline size such as 16 bytes"). -/
def defaultByteCapacity : Nat := 16

/-- The PresenceMap state: byte buffer (total function, zero beyond the
written region), its capacity, and the cursor (bytePosition, bitMask). -/
structure PresenceMap where
  bits : Nat → Nat
  byteCapacity : Nat
  bytePosition : Nat
  bitMask : Nat

/-- PresenceMap::maskToBitNumber — shift the mask left (as an 8-bit byte)
counting steps until it reaches 0x40 or vanishes.  Eight doublings always
reach 0 mod 256, so fuel 8 makes the C++ while-loop total. -/
def maskToBitNumberAux : Nat → Nat → Nat
  | 0, _ => 0
  | fuel + 1, bitMask =>
    if bitMask = startByteMask ∨ bitMask = 0 then 0
    else 1 + maskToBitNumberAux fuel ((bitMask * 2) % 256)

/-- PresenceMap::maskToBitNumber (PresenceMap.cpp lines 14-24). -/
def maskToBitNumber (bitMask : Nat) : Nat :=
  maskToBitNumberAux 8 bitMask

/-- PresenceMap::PresenceMap(size_t bits) — capacity is the default unless
ceil(bits/7) is larger; buffer zero-filled; cursor at origin. -/
def PresenceMap.init (bits : Nat) : PresenceMap :=
  { bits := fun _ => 0
    byteCapacity := max defaultByteCapacity ((bits + 6) / 7)
    bytePosition := 0
    bitMask := startByteMask }

/-- PresenceMap::rewind — cursor back to origin, buffer untouched. -/
def PresenceMap.rewind (m : PresenceMap) : PresenceMap :=
  { m with bytePosition := 0, bitMask := startByteMask }

/-- PresenceMap::grow — one more byte of capacity, the new tail byte zero. -/
def PresenceMap.grow (m : PresenceMap) : PresenceMap :=
  { m with
    bits := fun j => if j = m.byteCapacity then 0 else m.bits j
    byteCapacity := m.byteCapacity + 1 }

/-- PresenceMap::reset(bitCount) — when bitCount > 0 the buffer is re-sized
to (bitCount + 7) / 8 bytes if that exceeds the capacity; then the buffer is
zeroed and the cursor rewound.  (Note the constructor uses (bits + 6) / 7.) -/
def PresenceMap.reset (bitCount : Nat) (m : PresenceMap) : PresenceMap :=
  let cap :=
    if bitCount > 0 ∧ (bitCount + 7) / 8 > m.byteCapacity then (bitCount + 7) / 8
    else m.byteCapacity
  { bits := fun _ => 0
    byteCapacity := cap
    bytePosition := 0
    bitMask := startByteMask }

/-- Modelled from the spec: the cursor arithmetic of the sequential accessors
declared in the missing PresenceMap.h — after each bit access the mask
shifts right one; when it becomes zero the cursor wraps to the high data bit
of the next byte. -/
def PresenceMap.advance (m : PresenceMap) : PresenceMap :=
  let m2 := m.bitMask >>> 1
  if m2 = 0 then
    { m with bitMask := startByteMask, bytePosition := m.bytePosition + 1 }
  else
    { m with bitMask := m2 }

/-- Modelled from the spec: setNextField(present) of the missing
PresenceMap.h — write one bit at the cursor (set or clear), advance the
cursor, growing the buffer first when the cursor byte is past capacity. -/
def PresenceMap.setNextField (present : Bool) (m : PresenceMap) : PresenceMap :=
  let m1 := if m.bytePosition ≥ m.byteCapacity then m.grow else m
  let old := m1.bits m1.bytePosition
  let b2 := if present then old ||| m1.bitMask else old &&& (255 ^^^ m1.bitMask)
  PresenceMap.advance
    { m1 with bits := fun j => if j = m1.bytePosition then b2 else m1.bits j }

/-- Modelled from the spec: checkNextField() of the missing PresenceMap.h —
read the bit under the cursor (bits past the decoded end read as false,
the buffer being zero there) and advance the cursor. -/
def PresenceMap.checkNextField (m : PresenceMap) : Bool × PresenceMap :=
  (decide (m.bits m.bytePosition &&& m.bitMask ≠ 0), m.advance)

/-- Bit N of the map: stored at byte N / 7 under mask 0x40 >> (N % 7). -/
def PresenceMap.bitAt (m : PresenceMap) (n : Nat) : Bool :=
  decide (m.bits (n / 7) &&& (startByteMask >>> (n % 7)) ≠ 0)

/-- PresenceMap::appendByte — grow when the position has reached capacity,
store the byte, advance the (local) position. -/
def PresenceMap.appendByte (m : PresenceMap) (pos byte : Nat) : PresenceMap × Nat :=
  let m1 := if pos ≥ m.byteCapacity then m.grow else m
  ({ m1 with bits := fun j => if j = pos then byte else m1.bits j }, pos + 1)

/-- The trailing-zero-byte trimming loop of encode / encodeBytesNeeded:
while (bpos > 0 and bits[bpos] == 0) bpos -= 1. -/
def trimPos (bits : Nat → Nat) : Nat → Nat
  | 0 => 0
  | bpos + 1 => if bits (bpos + 1) = 0 then trimPos bits bpos else bpos + 1

/-- PresenceMap::encodeBytesNeeded (PresenceMap.cpp lines 86-105). -/
def PresenceMap.encodeBytesNeeded (m : PresenceMap) : Nat :=
  if m.bytePosition = 0 ∧ m.bitMask = startByteMask then 0
  else
    let b0 := if m.bitMask = startByteMask then m.bytePosition - 1 else m.bytePosition
    trimPos m.bits b0 + 1

/-- PresenceMap::encode (PresenceMap.cpp lines 107-128), as the list of
bytes put to the DataDestination: nothing when the cursor is at origin;
otherwise drop an unused final byte, trim trailing zero bytes, set the stop
bit on the last emitted byte, and emit bytes 0..bpos. -/
def PresenceMap.encode (m : PresenceMap) : List Nat :=
  if m.bytePosition = 0 ∧ m.bitMask = startByteMask then []
  else
    let b0 := if m.bitMask = startByteMask then m.bytePosition - 1 else m.bytePosition
    let bpos := trimPos m.bits b0
    (List.range (bpos + 1)).map (fun j => if j = bpos then m.bits j ||| stopBit else m.bits j)

/-- The read loop of PresenceMap::decode: take bytes from the source,
appending each; a byte with the stop bit set terminates (and is stored with
its stop bit intact); an exhausted source yields failure (none). -/
def PresenceMap.decodeLoop : List Nat → PresenceMap → Nat → Option PresenceMap
  | [], _, _ => none
  | byte :: rest, m, pos =>
    if byte &&& stopBit = 0 then
      let a := PresenceMap.appendByte m pos byte
      PresenceMap.decodeLoop rest a.1 a.2
    else
      some (PresenceMap.appendByte m pos byte).1

/-- PresenceMap::decode (PresenceMap.cpp lines 150-182): reset(), then read
bytes until one carries the stop bit. -/
def PresenceMap.decode (source : List Nat) (m : PresenceMap) : Option PresenceMap :=
  PresenceMap.decodeLoop source (m.reset 0) 0

/-- The "binary magic" mask of operator==: ((- bitMask) << 1) & dataBits
computed in (promoted, two's-complement) integer arithmetic; it selects the
data bits of the cursor byte that lie strictly above the cursor mask, i.e.
the bits already consumed in that byte. -/
def eqMask (bitMask : Nat) : Nat :=
  ((256 - bitMask) * 2) &&& dataBits

/-- PresenceMap::operator== (PresenceMap.cpp lines 241-253): equal cursor
fields, byte-for-byte equality before the cursor byte, and equality of the
consumed data bits of the cursor byte. -/
def PresenceMap.pmEq (a b : PresenceMap) : Bool :=
  if a.bytePosition ≠ b.bytePosition then false
  else if a.bitMask ≠ b.bitMask then false
  else if (List.range a.bytePosition).any (fun p => decide (a.bits p ≠ b.bits p)) then false
  else decide ((a.bits a.bytePosition ^^^ b.bits b.bytePosition) &&& eqMask a.bitMask = 0)

/-- Write a list of bits with successive setNextField calls. -/
def PresenceMap.writeBits (bs : List Bool) (m : PresenceMap) : PresenceMap :=
  bs.foldl (fun acc b => PresenceMap.setNextField b acc) m

/-- Read k bits with successive checkNextField calls. -/
def PresenceMap.readBits : Nat → PresenceMap → List Bool
  | 0, _ => []
  | k + 1, m => (m.checkNextField).1 :: PresenceMap.readBits k (m.checkNextField).2

/-- The absolute bit index of the cursor, bitNumber(bytePosition, bitMask). -/
def PresenceMap.cursorIndex (m : PresenceMap) : Nat :=
  7 * m.bytePosition + maskToBitNumber m.bitMask

/-- The documented single-bit invariant on a cursor mask. -/
def singleBitMask (bitMask : Nat) : Prop :=
  bitMask ∈ ([64, 32, 16, 8, 4, 2, 1] : List Nat)

instance (bitMask : Nat) : Decidable (singleBitMask bitMask) := by
  unfold singleBitMask
  infer_instance

/-- Two maps yield the same sequence of bits from position 0 up to their
cursors (in particular the cursors sit at the same bit index). -/
def PresenceMap.sameBitsToCursor (a b : PresenceMap) : Prop :=
  a.cursorIndex = b.cursorIndex ∧ ∀ i < a.cursorIndex, a.bitAt i = b.bitAt i

instance (a b : PresenceMap) : Decidable (PresenceMap.sameBitsToCursor a b) := by
  unfold PresenceMap.sameBitsToCursor
  infer_instance

/-- A LinkedBuffer: identity, fixed capacity, recorded used length. -/
structure Buf where
  id : Nat
  capacity : Nat
  used : Nat
deriving DecidableEq

/-- The externally observable calls and socket operations made by the
receiver, in program order. -/
inductive REvent
  | socketOpen
  | setReuseAddress
  | bindSocket
  | receiverStarted
  | logStartup
  | joinGroup
  | pushIdle (id : Nat)
  | postReceive (id : Nat)
  | noBuffer
  | consumeBuffer (id used : Nat)
  | reportCommunicationError
  | reportDecodingError
  | stopCalled
  | socketCancel
deriving DecidableEq

/-- The consumer's possible behaviours for one consumeBuffer invocation:
return true, return false (request stop), or throw — in which case
reportDecodingError answers true (continue) or false (stop). -/
inductive ConsumerAnswer
  | ok
  | requestStop
  | throwContinue
  | throwStop
deriving DecidableEq

/-- MulticastReceiver mutable state: flags, the idle pool (LIFO), the
single-server queue (FIFO) with its servicer gate, the posted buffer
(inFlight, carried by the pending async receive), and the counters. -/
structure RState where
  stopping : Bool
  readInProgress : Bool
  idlePool : List Buf
  queue : List Buf
  serviceInProgress : Bool
  inFlight : Option Buf
  noBufferAvailable : Nat
  packetsReceived : Nat
  errorPackets : Nat
  emptyPackets : Nat
  packetsQueued : Nat
  batchesProcessed : Nat
  packetsProcessed : Nat
  bytesReceived : Nat
  bytesProcessed : Nat
  largestPacket : Nat

namespace MulticastReceiver

/-- The constructed receiver: flags clear, pools empty, counters zero. -/
def initRState : RState :=
  { stopping := false
    readInProgress := false
    idlePool := []
    queue := []
    serviceInProgress := false
    inFlight := none
    noBufferAvailable := 0
    packetsReceived := 0
    errorPackets := 0
    emptyPackets := 0
    packetsQueued := 0
    batchesProcessed := 0
    packetsProcessed := 0
    bytesReceived := 0
    bytesProcessed := 0
    largestPacket := 0 }

/-- MulticastReceiver::stop — set the stopping flag and cancel the socket. -/
def stop (s : RState) : RState × List REvent :=
  ({ s with stopping := true }, [REvent.stopCalled, REvent.socketCancel])

/-- MulticastReceiver::startReceive — when no read is in progress and not
stopping, pop the idle pool: on a buffer, mark the read in progress and post
the async receive; on an empty pool count noBufferAvailable. -/
def startReceive (s : RState) : RState × List REvent :=
  if ¬ s.readInProgress ∧ ¬ s.stopping then
    match s.idlePool with
    | b :: rest =>
      ({ s with readInProgress := true, idlePool := rest, inFlight := some b },
        [REvent.postReceive b.id])
    | [] =>
      ({ s with noBufferAvailable := s.noBufferAvailable + 1 }, [REvent.noBuffer])
  else (s, [])

/-- MulticastReceiver::start — open the socket, set reuse, bind, call
receiverStarted, optionally log, join the multicast group, allocate and push
bufferCount buffers (LIFO), and startReceive under the lock. -/
def start (bufferSize bufferCount : Nat) (wantLog : Bool) : RState × List REvent :=
  let bufs := (List.range bufferCount).map (fun i => Buf.mk i bufferSize 0)
  let s1 := { initRState with idlePool := bufs.foldl (fun pool b => b :: pool) [] }
  let r2 := startReceive s1
  (r2.1,
    [REvent.socketOpen, REvent.setReuseAddress, REvent.bindSocket, REvent.receiverStarted]
      ++ (if wantLog then [REvent.logStartup] else [])
      ++ [REvent.joinGroup]
      ++ bufs.map (fun b => REvent.pushIdle b.id)
      ++ r2.2)

/-- The trace of calls made by MulticastReceiver::start. -/
def startTrace (bufferSize bufferCount : Nat) (wantLog : Bool) : List REvent :=
  (start bufferSize bufferCount wantLog).2

/-- The inner while(serviceNext) loop of handleReceive: pop each queued
buffer, count it processed; unless stopping, account its bytes, drive the
consumer (the oracle, indexed by the packetsProcessed count, chooses the
consumer's behaviour), and collect the buffer for deferred return to the
idle pool.  Yields the state, the collected buffers, and the call trace. -/
def drainLoop (oracle : Nat → ConsumerAnswer) :
    List Buf → RState → RState × List Buf × List REvent
  | [], s => (s, [], [])
  | b :: rest, s =>
    let s1 := { s with packetsProcessed := s.packetsProcessed + 1 }
    if s1.stopping then drainLoop oracle rest s1
    else
      let s2 := { s1 with bytesProcessed := s1.bytesProcessed + b.used }
      let step :=
        match oracle s.packetsProcessed with
        | ConsumerAnswer.ok => (s2, [REvent.consumeBuffer b.id b.used])
        | ConsumerAnswer.requestStop =>
          let r := stop s2
          (r.1, REvent.consumeBuffer b.id b.used :: r.2)
        | ConsumerAnswer.throwContinue =>
          (s2, [REvent.consumeBuffer b.id b.used, REvent.reportDecodingError])
        | ConsumerAnswer.throwStop =>
          let r := stop s2
          (r.1, REvent.consumeBuffer b.id b.used :: REvent.reportDecodingError :: r.2)
      let tail := drainLoop oracle rest step.1
      (tail.1, b :: tail.2.1, step.2 ++ tail.2.2)

/-- One iteration of the while(service) loop of handleReceive: count the
batch, drain the queue collecting idle buffers, bulk-return them to the idle
pool (LIFO), startReceive, then queue_.endService(!stopping): the queue is
empty after the drain (nothing pushes during sequential servicing), so the
servicer is released and the loop exits. -/
def serviceBatch (oracle : Nat → ConsumerAnswer) (s : RState) : RState × List REvent :=
  let s1 := { s with batchesProcessed := s.batchesProcessed + 1 }
  let d := drainLoop oracle s1.queue { s1 with queue := [] }
  let s3 := { d.1 with idlePool := d.2.1.foldl (fun pool b => b :: pool) d.1.idlePool }
  let r4 := startReceive s3
  ({ r4.1 with serviceInProgress := false },
    d.2.2 ++ d.2.1.map (fun b => REvent.pushIdle b.id) ++ r4.2)

/-- MulticastReceiver::handleReceive (MulticastReceiver.h lines 262-352):
under the lock clear readInProgress, count the packet, then branch on the
completion status — queue a non-empty packet (becoming the servicer if the
queue gate grants it), recycle an empty one, or on error recycle the buffer,
report the communication error and stop if the consumer answers false; then
startReceive; finally, outside the lock, service the queue if granted. -/
def handleReceive (error : Bool) (bytesReceived : Nat) (commOk : Bool)
    (oracle : Nat → ConsumerAnswer) (buffer : Buf) (s : RState) : RState × List REvent :=
  let s1 := { s with
    readInProgress := false
    inFlight := none
    packetsReceived := s.packetsReceived + 1 }
  if ¬ error then
    if bytesReceived > 0 then
      let buf := { buffer with used := bytesReceived }
      let s2 := { s1 with
        packetsQueued := s1.packetsQueued + 1
        bytesReceived := s1.bytesReceived + bytesReceived
        largestPacket := max s1.largestPacket bytesReceived
        queue := s1.queue ++ [buf] }
      -- queue_.push returns true iff nobody is servicing; queue_.startService
      -- then makes this thread the servicer.
      let service := ¬ s2.serviceInProgress
      let s3 := if service then { s2 with serviceInProgress := true } else s2
      let r4 := startReceive s3
      if service then
        let r5 := serviceBatch oracle r4.1
        (r5.1, r4.2 ++ r5.2)
      else (r4.1, r4.2)
    else
      let s2 := { s1 with
        emptyPackets := s1.emptyPackets + 1
        idlePool := buffer :: s1.idlePool }
      let r3 := startReceive s2
      (r3.1, REvent.pushIdle buffer.id :: r3.2)
  else
    let s2 := { s1 with
      errorPackets := s1.errorPackets + 1
      idlePool := buffer :: s1.idlePool }
    let r3 := if commOk then (s2, ([] : List REvent)) else stop s2
    let r4 := startReceive r3.1
    (r4.1, REvent.pushIdle buffer.id :: REvent.reportCommunicationError :: (r3.2 ++ r4.2))

/-- One receive completion: the OS hands back the posted (inFlight) buffer
with a status and a byte count, and the completion handler runs. -/
structure Completion where
  error : Bool
  bytesReceived : Nat
  commOk : Bool
  oracle : Nat → ConsumerAnswer

/-- Deliver one completion to the receiver (no-op when no receive is
posted). -/
def step (s : RState) (c : Completion) : RState × List REvent :=
  match s.inFlight with
  | some b => handleReceive c.error c.bytesReceived c.commOk c.oracle b s
  | none => (s, [])

/-- Run a sequence of completions to quiescence. -/
def run : RState → List Completion → RState
  | s, [] => s
  | s, c :: cs => run (step s c).1 cs

end MulticastReceiver

/-! Bit-level helper facts about the masks. -/

lemma startMask_pow : ∀ r < 7, startByteMask >>> r = 2 ^ (6 - r) := by decide

lemma startMask_testBit_lt : ∀ r < 7, ∀ k < 8,
    (startByteMask >>> r).testBit k = decide (k = 6 - r) := by decide

lemma shiftRight_le_self (x r : Nat) : x >>> r ≤ x := by
  rw [Nat.shiftRight_eq_div_pow]
  exact Nat.div_le_self _ _

lemma startMask_testBit (r k : Nat) (hr : r < 7) :
    (startByteMask >>> r).testBit k = decide (k = 6 - r) := by
  by_cases hk : k < 8
  · exact startMask_testBit_lt r hr k hk
  · have h1 : (startByteMask >>> r) < 2 ^ k := by
      have h2 : startByteMask >>> r ≤ 64 := shiftRight_le_self 64 r
      have h3 : (256 : Nat) ≤ 2 ^ k :=
        calc (256 : Nat) = 2 ^ 8 := by norm_num
        _ ≤ 2 ^ k := Nat.pow_le_pow_right (by norm_num) (by omega)
      omega
    rw [Nat.testBit_lt_two_pow h1]
    have : ¬ (k = 6 - r) := by omega
    simp [this]

lemma clearMask_testBit_lt : ∀ r < 7, ∀ k < 8,
    ((255 : Nat) ^^^ (startByteMask >>> r)).testBit k = decide (k < 8 ∧ k ≠ 6 - r) := by
  decide

lemma clearMask_testBit (r k : Nat) (hr : r < 7) :
    ((255 : Nat) ^^^ (startByteMask >>> r)).testBit k = decide (k < 8 ∧ k ≠ 6 - r) := by
  by_cases hk : k < 8
  · exact clearMask_testBit_lt r hr k hk
  · have h1 : (255 : Nat) ^^^ (startByteMask >>> r) < 2 ^ k := by
      have h2 : (255 : Nat) < 2 ^ 8 := by norm_num
      have h3 : startByteMask >>> r < 2 ^ 8 := by
        have h4 : startByteMask >>> r ≤ 64 := shiftRight_le_self 64 r
        have h5 : (2 : Nat) ^ 8 = 256 := by norm_num
        omega
      calc (255 : Nat) ^^^ (startByteMask >>> r) < 2 ^ 8 := Nat.xor_lt_two_pow h2 h3
      _ ≤ 2 ^ k := Nat.pow_le_pow_right (by norm_num) (by omega)
    rw [Nat.testBit_lt_two_pow h1]
    simp [hk]

lemma and_stopBit_eq_zero {x : Nat} (h : x < 128) : x &&& stopBit = 0 := by
  have hp : (2 : Nat) ^ 7 = 128 := by norm_num
  have h7 : x.testBit 7 = false := Nat.testBit_lt_two_pow (by omega)
  have : x &&& stopBit = (x.testBit 7).toNat * 2 ^ 7 := by
    unfold stopBit
    exact Nat.and_two_pow x 7
  rw [this, h7]
  rfl

lemma or_stopBit_and_ne (x : Nat) : (x ||| stopBit) &&& stopBit ≠ 0 := by
  have h7 : (x ||| stopBit).testBit 7 = true := by
    rw [Nat.testBit_or]
    have : (stopBit).testBit 7 = true := by decide
    simp [this]
  have : (x ||| stopBit) &&& stopBit = ((x ||| stopBit).testBit 7).toNat * 2 ^ 7 := by
    unfold stopBit
    exact Nat.and_two_pow _ 7
  rw [this, h7]
  norm_num

lemma bitAt_testBit (m : PresenceMap) (n : Nat) :
    m.bitAt n = (m.bits (n / 7)).testBit (6 - n % 7) := by
  have hr : n % 7 < 7 := Nat.mod_lt _ (by norm_num)
  unfold PresenceMap.bitAt
  rw [startMask_pow _ hr, Nat.and_two_pow]
  cases h : (m.bits (n / 7)).testBit (6 - n % 7) <;> simp [h]

/-! Facts about the trailing-zero trimming loop. -/

lemma trimPos_le (bits : Nat → Nat) (b : Nat) : trimPos bits b ≤ b := by
  induction b with
  | zero => simp [trimPos]
  | succ b ih =>
    unfold trimPos
    split
    · omega
    · omega

lemma trimPos_zero_beyond (bits : Nat → Nat) (b : Nat) :
    ∀ j, trimPos bits b < j → j ≤ b → bits j = 0 := by
  induction b with
  | zero => intro j h1 h2; omega
  | succ b ih =>
    intro j h1 h2
    unfold trimPos at h1
    by_cases hz : bits (b + 1) = 0
    · rw [if_pos hz] at h1
      rcases Nat.lt_or_ge j (b + 1) with hj | hj
      · exact ih j h1 (by omega)
      · have : j = b + 1 := by omega
        rw [this]; exact hz
    · rw [if_neg hz] at h1
      omega

/-! Cursor arithmetic: advance moves the cursor from bit n to bit n + 1. -/

lemma shiftMask_step : ∀ r < 6,
    (startByteMask >>> r) >>> 1 = startByteMask >>> (r + 1) ∧
    (startByteMask >>> r) >>> 1 ≠ 0 := by decide

lemma advance_at (m : PresenceMap) (n : Nat)
    (hp : m.bytePosition = n / 7) (hm : m.bitMask = startByteMask >>> (n % 7)) :
    (m.advance).bytePosition = (n + 1) / 7 ∧
    (m.advance).bitMask = startByteMask >>> ((n + 1) % 7) ∧
    (m.advance).bits = m.bits ∧
    (m.advance).byteCapacity = m.byteCapacity := by
  have hr : n % 7 < 7 := Nat.mod_lt _ (by norm_num)
  by_cases h6 : n % 7 = 6
  · have hmask : m.bitMask = 1 := by rw [hm, h6]; decide
    have hdiv : (n + 1) / 7 = n / 7 + 1 := by omega
    have hmod : (n + 1) % 7 = 0 := by omega
    unfold PresenceMap.advance
    rw [hmask]
    simp [hdiv, hmod, hp]
  · obtain ⟨k1, k2⟩ := shiftMask_step (n % 7) (by omega)
    have hdiv : (n + 1) / 7 = n / 7 := by omega
    have hmod : (n + 1) % 7 = n % 7 + 1 := by omega
    unfold PresenceMap.advance
    rw [hm, k1, if_neg (k1 ▸ k2)]
    simp [hdiv, hmod, hp]

/-- The invariant of a map that has been filled by n sequential setNextField
calls from a fresh buffer: the cursor sits at bit n, every byte stays below
0x80 (the stop bit is never set during accumulation), bytes beyond the
cursor byte are zero, the unwritten low bits of the cursor byte are zero,
bytes at or past the capacity are zero, and the cursor byte is within
capacity. -/
structure GoodAt (m : PresenceMap) (n : Nat) : Prop where
  pos : m.bytePosition = n / 7
  mask : m.bitMask = startByteMask >>> (n % 7)
  lt : ∀ j, m.bits j < 128
  hi : ∀ j, n / 7 < j → m.bits j = 0
  cur : ∀ k, k < 7 - n % 7 → (m.bits (n / 7)).testBit k = false
  capz : ∀ j, m.byteCapacity ≤ j → m.bits j = 0
  poscap : m.bytePosition ≤ m.byteCapacity

lemma goodAt_init (k : Nat) : GoodAt (PresenceMap.init k) 0 := by
  refine ⟨rfl, rfl, ?_, ?_, ?_, ?_, ?_⟩ <;>
    simp [PresenceMap.init]

lemma goodAt_bitAt_ge (m : PresenceMap) (n : Nat) (g : GoodAt m n)
    (i : Nat) (h : n ≤ i) : m.bitAt i = false := by
  rw [bitAt_testBit]
  rcases Nat.lt_or_ge (n / 7) (i / 7) with hj | hj
  · rw [g.hi _ hj]
    exact Nat.zero_testBit _
  · have hq : i / 7 = n / 7 := by omega
    have hrm : n % 7 ≤ i % 7 := by omega
    rw [hq]
    exact g.cur _ (by omega)

lemma setNextField_step (m : PresenceMap) (n : Nat) (b : Bool) (g : GoodAt m n) :
    GoodAt (PresenceMap.setNextField b m) (n + 1) ∧
    (PresenceMap.setNextField b m).bitAt n = b ∧
    (∀ i, i ≠ n → (PresenceMap.setNextField b m).bitAt i = m.bitAt i) := by
  have hr : n % 7 < 7 := Nat.mod_lt _ (by norm_num)
  set m1 := if m.bytePosition ≥ m.byteCapacity then m.grow else m with hm1def
  have h1bits : ∀ j, m1.bits j = m.bits j := by
    intro j
    rw [hm1def]
    split
    · show (if j = m.byteCapacity then 0 else m.bits j) = m.bits j
      split
      · rename_i hj
        rw [hj, g.capz _ (Nat.le_refl _)]
      · rfl
    · rfl
  have h1pos : m1.bytePosition = m.bytePosition := by
    rw [hm1def]; split <;> rfl
  have h1mask : m1.bitMask = m.bitMask := by
    rw [hm1def]; split <;> rfl
  have h1cap : m.byteCapacity ≤ m1.byteCapacity := by
    rw [hm1def]; split
    · exact Nat.le_succ _
    · exact Nat.le_refl _
  have h1poslt : m1.bytePosition < m1.byteCapacity := by
    rw [hm1def]; split
    · rename_i hge
      have := g.poscap
      show m.bytePosition < m.byteCapacity + 1
      omega
    · rename_i hlt
      omega
  have h1capz : ∀ j, m1.byteCapacity ≤ j → m1.bits j = 0 := by
    intro j hj
    rw [h1bits]
    exact g.capz j (Nat.le_trans h1cap hj)
  set b2 := if b then (m1.bits m1.bytePosition) ||| m1.bitMask
            else (m1.bits m1.bytePosition) &&& (255 ^^^ m1.bitMask) with hb2def
  set mset : PresenceMap :=
    { m1 with bits := fun j => if j = m1.bytePosition then b2 else m1.bits j } with hmsetdef
  have hsnf : PresenceMap.setNextField b m = mset.advance := rfl
  have hsetpos : mset.bytePosition = n / 7 := by
    show m1.bytePosition = n / 7
    rw [h1pos, g.pos]
  have hsetmask : mset.bitMask = startByteMask >>> (n % 7) := by
    show m1.bitMask = _
    rw [h1mask, g.mask]
  obtain ⟨hapos, hamask, habits, hacap⟩ := advance_at mset n hsetpos hsetmask
  -- the written byte, bit by bit
  have hb2tb : ∀ k, b2.testBit k =
      if k = 6 - n % 7 then b else (m.bits (n / 7)).testBit k := by
    intro k
    have hold : m1.bits m1.bytePosition = m.bits (n / 7) := by
      rw [h1bits, h1pos, g.pos]
    rw [hb2def, h1mask, g.mask]
    cases b with
    | true =>
      rw [if_pos rfl, Nat.testBit_or, hold, startMask_testBit _ k hr]
      by_cases hk : k = 6 - n % 7
      · simp [hk]
      · simp [hk]
    | false =>
      rw [if_neg (by simp), Nat.testBit_and, hold, clearMask_testBit _ k hr]
      by_cases hk : k = 6 - n % 7
      · simp [hk]
      · by_cases hk8 : k < 8
        · simp [hk, hk8]
        · have : (m.bits (n / 7)).testBit k = false := by
            refine Nat.testBit_lt_two_pow ?_
            have h128 : m.bits (n / 7) < 128 := g.lt _
            have : (128 : Nat) ≤ 2 ^ k :=
              calc (128 : Nat) = 2 ^ 7 := by norm_num
              _ ≤ 2 ^ k := Nat.pow_le_pow_right (by norm_num) (by omega)
            omega
          simp [hk, hk8, this]
  have hb2lt : b2 < 128 := by
    rw [hb2def]
    have hM : m1.bitMask < 128 := by
      rw [h1mask, g.mask]
      have := shiftRight_le_self 64 (n % 7)
      show startByteMask >>> (n % 7) < 128
      have h64 : startByteMask >>> (n % 7) ≤ 64 := shiftRight_le_self 64 (n % 7)
      omega
    have hold : m1.bits m1.bytePosition < 128 := by
      rw [h1bits]; exact g.lt _
    split
    · have h128 : (128 : Nat) = 2 ^ 7 := by norm_num
      rw [h128] at hold hM ⊢
      exact Nat.or_lt_two_pow hold hM
    · calc m1.bits m1.bytePosition &&& (255 ^^^ m1.bitMask)
          ≤ m1.bits m1.bytePosition := Nat.and_le_left
      _ < 128 := hold
  have hmsetbits : ∀ j, mset.bits j = if j = n / 7 then b2 else m.bits j := by
    intro j
    show (if j = m1.bytePosition then b2 else m1.bits j) = _
    rw [h1pos, g.pos, h1bits]
  refine ⟨⟨?_, ?_, ?_, ?_, ?_, ?_, ?_⟩, ?_, ?_⟩
  · rw [hsnf, hapos]
  · rw [hsnf, hamask]
  · intro j
    rw [hsnf, habits, hmsetbits]
    split
    · exact hb2lt
    · exact g.lt _
  · intro j hj
    rw [hsnf, habits, hmsetbits]
    have hd : n / 7 ≤ (n + 1) / 7 := by omega
    rw [if_neg (by omega)]
    exact g.hi _ (by omega)
  · intro k hk
    rw [hsnf, habits, hmsetbits]
    by_cases h6 : n % 7 = 6
    · have hq : (n + 1) / 7 = n / 7 + 1 := by omega
      rw [if_neg (by omega), g.hi _ (by omega)]
      exact Nat.zero_testBit _
    · have hq : (n + 1) / 7 = n / 7 := by omega
      have hm' : (n + 1) % 7 = n % 7 + 1 := by omega
      rw [hq, if_pos rfl, hb2tb]
      rw [hm'] at hk
      rw [if_neg (by omega)]
      exact g.cur _ (by omega)
  · intro j hj
    rw [hsnf, hacap] at hj
    have hj' : m1.byteCapacity ≤ j := hj
    have hp1 : m.bytePosition = n / 7 := g.pos
    rw [hsnf, habits, hmsetbits]
    rw [if_neg (by omega)]
    exact g.capz _ (by omega)
  · rw [hsnf, hapos, hacap]
    show (n + 1) / 7 ≤ m1.byteCapacity
    have := g.pos
    omega
  · rw [hsnf, bitAt_testBit, habits, hmsetbits, if_pos rfl, hb2tb, if_pos rfl]
  · intro i hi
    rw [hsnf, bitAt_testBit, habits, hmsetbits, bitAt_testBit]
    by_cases hj : i / 7 = n / 7
    · have hri : i % 7 ≠ n % 7 := by omega
      have hri7 : i % 7 < 7 := Nat.mod_lt _ (by norm_num)
      rw [if_pos hj, hb2tb, if_neg (by omega), hj]
    · rw [if_neg hj]

lemma writeBits_spec (bs : List Bool) :
    ∀ (m : PresenceMap) (n : Nat), GoodAt m n →
      GoodAt (PresenceMap.writeBits bs m) (n + bs.length) ∧
      (∀ i, i < n → (PresenceMap.writeBits bs m).bitAt i = m.bitAt i) ∧
      (∀ i, n ≤ i → i < n + bs.length →
        (PresenceMap.writeBits bs m).bitAt i = bs.getD (i - n) false) := by
  induction bs with
  | nil =>
    intro m n g
    refine ⟨by simpa using g, fun i _ => rfl, fun i h1 h2 => by simp at h2; omega⟩
  | cons b bs ih =>
    intro m n g
    obtain ⟨g1, hbit, hpres⟩ := setNextField_step m n b g
    have hfold : PresenceMap.writeBits (b :: bs) m
        = PresenceMap.writeBits bs (PresenceMap.setNextField b m) := rfl
    obtain ⟨G, P, W⟩ := ih (PresenceMap.setNextField b m) (n + 1) g1
    refine ⟨?_, ?_, ?_⟩
    · rw [hfold]
      have : n + (b :: bs).length = (n + 1) + bs.length := by simp; omega
      rw [this]
      exact G
    · intro i hi
      rw [hfold, P i (by omega), hpres i (by omega)]
    · intro i h1 h2
      rw [hfold]
      rcases Nat.eq_or_lt_of_le h1 with he | hlt
      · rw [P i (by omega), ← he, hbit]
        simp [← he]
      · rw [W i (by omega) (by simp at h2 ⊢; omega)]
        have hidx : i - n = (i - (n + 1)) + 1 := by omega
        rw [hidx]
        rfl

/-- C6: encodeBytesNeeded returns exactly the number of bytes a subsequent
encode on the same state emits. -/
theorem encodeBytesNeeded_eq_encode_length (m : PresenceMap) :
    m.encodeBytesNeeded = m.encode.length := by
  unfold PresenceMap.encodeBytesNeeded PresenceMap.encode
  split
  · rfl
  · simp

lemma startMask_eq_64_iff : ∀ r < 7, (startByteMask >>> r = startByteMask ↔ r = 0) := by
  decide

lemma encode_spec (m : PresenceMap) (n : Nat) (g : GoodAt m n) (hn : 0 < n) :
    ∃ bpos, m.encode = (List.range bpos).map m.bits ++ [m.bits bpos ||| stopBit] ∧
      (∀ j, bpos < j → m.bits j = 0) ∧ bpos ≤ n / 7 := by
  have hr : n % 7 < 7 := Nat.mod_lt _ (by norm_num)
  have horig : ¬ (m.bytePosition = 0 ∧ m.bitMask = startByteMask) := by
    rintro ⟨h1, h2⟩
    rw [g.mask] at h2
    have hr0 : n % 7 = 0 := (startMask_eq_64_iff _ hr).1 h2
    rw [g.pos] at h1
    omega
  set b0 := if m.bitMask = startByteMask then m.bytePosition - 1 else m.bytePosition with hb0def
  have hb0z : ∀ j, b0 < j → m.bits j = 0 := by
    intro j hj
    rw [hb0def] at hj
    by_cases hm64 : m.bitMask = startByteMask
    · rw [if_pos hm64] at hj
      have hr0 : n % 7 = 0 := by
        rw [g.mask] at hm64
        exact (startMask_eq_64_iff _ hr).1 hm64
      have hpos1 : 1 ≤ m.bytePosition := by
        have := g.pos
        omega
      rcases Nat.lt_or_ge (n / 7) j with hgt | hle
      · exact g.hi _ hgt
      · have hj7 : j = n / 7 := by
          have := g.pos
          omega
        rw [hj7]
        refine Nat.zero_of_testBit_eq_false ?_
        intro k
        rcases Nat.lt_or_ge k 7 with hk | hk
        · exact g.cur k (by omega)
        · refine Nat.testBit_lt_two_pow ?_
          have h128 : m.bits (n / 7) < 128 := g.lt _
          have : (128 : Nat) ≤ 2 ^ k :=
            calc (128 : Nat) = 2 ^ 7 := by norm_num
            _ ≤ 2 ^ k := Nat.pow_le_pow_right (by norm_num) (by omega)
          omega
    · rw [if_neg hm64] at hj
      refine g.hi _ ?_
      rw [g.pos] at hj
      exact hj
  have hb0le : b0 ≤ n / 7 := by
    rw [hb0def]
    have := g.pos
    split <;> omega
  refine ⟨trimPos m.bits b0, ?_, ?_, Nat.le_trans (trimPos_le _ _) hb0le⟩
  · unfold PresenceMap.encode
    rw [if_neg horig]
    dsimp only
    rw [← hb0def]
    rw [List.range_succ, List.map_append]
    congr 1
    · refine List.map_congr_left ?_
      intro j hj
      rw [List.mem_range] at hj
      rw [if_neg (by omega)]
    · simp
  · intro j hj
    rcases Nat.lt_or_ge b0 j with hgt | hle
    · exact hb0z _ hgt
    · exact trimPos_zero_beyond m.bits b0 j hj hle

/-- C5: a map populated only via setNextField emits, through encode, a byte
sequence in which exactly one byte carries the stop bit 0x80 and that byte
is the last; with no bit written, encode emits zero bytes. -/
theorem encode_stopBit_unique (bs : List Bool) :
    (bs = [] → (PresenceMap.writeBits bs (PresenceMap.init bs.length)).encode = []) ∧
    (bs ≠ [] →
      (PresenceMap.writeBits bs (PresenceMap.init bs.length)).encode.countP
          (fun x => decide (x &&& stopBit ≠ 0)) = 1 ∧
      ∃ last, (PresenceMap.writeBits bs (PresenceMap.init bs.length)).encode.getLast?
          = some last ∧ last &&& stopBit ≠ 0) := by
  constructor
  · intro h
    subst h
    rfl
  · intro hne
    obtain ⟨g, -, -⟩ := writeBits_spec bs (PresenceMap.init bs.length) 0 (goodAt_init _)
    rw [Nat.zero_add] at g
    have hn : 0 < bs.length := List.length_pos.2 hne
    obtain ⟨bpos, hout, hbeyond, hle⟩ :=
      encode_spec (PresenceMap.writeBits bs (PresenceMap.init bs.length)) bs.length g hn
    rw [hout]
    constructor
    · rw [List.countP_append]
      have h1 : (List.countP (fun x => decide (x &&& stopBit ≠ 0))
          ((List.range bpos).map (PresenceMap.writeBits bs (PresenceMap.init bs.length)).bits)) = 0 := by
        rw [List.countP_eq_zero]
        intro x hx
        rw [List.mem_map] at hx
        obtain ⟨j, -, rfl⟩ := hx
        simp [and_stopBit_eq_zero (g.lt j)]
      rw [h1]
      simp [or_stopBit_and_ne]
    · refine ⟨_, List.getLast?_concat _, or_stopBit_and_ne _⟩

/-- Witness for C5 at the spec's scenario S1: the three bits T F T. -/
theorem encode_stopBit_unique_witness :
    (PresenceMap.writeBits [true, false, true] (PresenceMap.init 3)).encode.countP
        (fun x => decide (x &&& stopBit ≠ 0)) = 1 ∧
    ∃ last, (PresenceMap.writeBits [true, false, true] (PresenceMap.init 3)).encode.getLast?
        = some last ∧ last &&& stopBit ≠ 0 :=
  (encode_stopBit_unique [true, false, true]).2 (by simp)

lemma appendByte_spec (m : PresenceMap) (pos byte : Nat)
    (hcap : pos ≤ m.byteCapacity) (hz : ∀ j, pos ≤ j → m.bits j = 0) :
    (∀ j, (m.appendByte pos byte).1.bits j = if j = pos then byte else m.bits j) ∧
    (m.appendByte pos byte).1.bytePosition = m.bytePosition ∧
    (m.appendByte pos byte).1.bitMask = m.bitMask ∧
    (m.appendByte pos byte).2 = pos + 1 ∧
    pos + 1 ≤ (m.appendByte pos byte).1.byteCapacity := by
  unfold PresenceMap.appendByte
  by_cases hge : pos ≥ m.byteCapacity
  · have hpc : pos = m.byteCapacity := by omega
    rw [if_pos hge]
    refine ⟨?_, rfl, rfl, rfl, ?_⟩
    · intro j
      show (if j = pos then byte else m.grow.bits j) = _
      split
      · rfl
      · show (if j = m.byteCapacity then 0 else m.bits j) = m.bits j
        split
        · rename_i hj
          rw [hj, hz _ (by omega)]
        · rfl
    · show pos + 1 ≤ m.byteCapacity + 1
      omega
  · rw [if_neg hge]
    refine ⟨fun j => rfl, rfl, rfl, rfl, ?_⟩
    show pos + 1 ≤ m.byteCapacity
    omega

lemma decodeLoop_none_iff (src : List Nat) :
    ∀ (m : PresenceMap) (pos : Nat),
      (PresenceMap.decodeLoop src m pos = none ↔ ∀ x ∈ src, x &&& stopBit = 0) := by
  induction src with
  | nil =>
    intro m pos
    simp [PresenceMap.decodeLoop]
  | cons x rest ih =>
    intro m pos
    unfold PresenceMap.decodeLoop
    by_cases hx : x &&& stopBit = 0
    · rw [if_pos hx]
      rw [ih]
      simp [hx]
    · rw [if_neg hx]
      simp [hx]

lemma decodeLoop_spec (p : List Nat) :
    ∀ (t : Nat) (rest : List Nat) (m : PresenceMap) (pos : Nat),
      (∀ x ∈ p, x &&& stopBit = 0) → t &&& stopBit ≠ 0 →
      pos ≤ m.byteCapacity → (∀ j, pos ≤ j → m.bits j = 0) →
      ∃ m2, PresenceMap.decodeLoop (p ++ t :: rest) m pos = some m2 ∧
        (∀ j, m2.bits j = if j < pos then m.bits j else (p ++ [t]).getD (j - pos) 0) ∧
        m2.bytePosition = m.bytePosition ∧ m2.bitMask = m.bitMask := by
  induction p with
  | nil =>
    intro t rest m pos hp ht hcap hz
    obtain ⟨hb, hbp, hbm, -, -⟩ := appendByte_spec m pos t hcap hz
    refine ⟨_, ?_, ?_, hbp, hbm⟩
    · show PresenceMap.decodeLoop (t :: rest) m pos = _
      unfold PresenceMap.decodeLoop
      rw [if_neg ht]
    · intro j
      rw [hb j]
      rcases Nat.lt_trichotomy j pos with hj | hj | hj
      · rw [if_neg (show ¬ j = pos by omega), if_pos hj]
      · subst hj
        simp
      · rw [if_neg (show ¬ j = pos by omega), if_neg (show ¬ j < pos by omega),
          hz _ (by omega)]
        have hd : j - pos = (j - pos - 1) + 1 := by omega
        rw [hd]
        simp
  | cons x p ih =>
    intro t rest m pos hp ht hcap hz
    have hx : x &&& stopBit = 0 := hp x (by simp)
    obtain ⟨hb, hbp, hbm, hret, hcap2⟩ := appendByte_spec m pos x hcap hz
    have hz2 : ∀ j, pos + 1 ≤ j → (m.appendByte pos x).1.bits j = 0 := by
      intro j hj
      rw [hb j, if_neg (by omega)]
      exact hz _ (by omega)
    obtain ⟨m2, hloop, hbits, hp2, hm2⟩ :=
      ih t rest (m.appendByte pos x).1 (pos + 1) (fun y hy => hp y (by simp [hy])) ht hcap2 hz2
    refine ⟨m2, ?_, ?_, by rw [hp2, hbp], by rw [hm2, hbm]⟩
    · show PresenceMap.decodeLoop (x :: (p ++ t :: rest)) m pos = _
      unfold PresenceMap.decodeLoop
      rw [if_pos hx]
      dsimp only
      rw [hret]
      exact hloop
    · intro j
      rw [hbits j, hb j]
      rcases Nat.lt_trichotomy j pos with hj | hj | hj
      · rw [if_pos (show j < pos + 1 by omega), if_neg (show ¬ j = pos by omega),
          if_pos hj]
      · subst hj
        rw [if_pos (show j < j + 1 by omega), if_pos rfl,
          if_neg (show ¬ j < j by omega)]
        simp
      · rw [if_neg (show ¬ j < pos + 1 by omega), if_neg (show ¬ j < pos by omega)]
        have hidx : j - pos = (j - (pos + 1)) + 1 := by omega
        rw [hidx, List.cons_append, List.getD_cons_succ]

/-- C7: decode returns false (none) exactly when the source runs out before
a stop-bit byte, and on success it has stored every byte up to and including
the first stop-bit byte, the terminator's stop bit kept intact, with the
cursor left at the origin. -/
theorem decode_characterization (src : List Nat) (m : PresenceMap) :
    (PresenceMap.decode src m = none ↔ ∀ x ∈ src, x &&& stopBit = 0) ∧
    (∀ (p : List Nat) (t : Nat) (rest : List Nat),
      src = p ++ t :: rest → (∀ x ∈ p, x &&& stopBit = 0) → t &&& stopBit ≠ 0 →
      ∃ m2, PresenceMap.decode src m = some m2 ∧
        (∀ j, m2.bits j = (p ++ [t]).getD j 0) ∧
        m2.bits p.length &&& stopBit ≠ 0 ∧
        m2.bytePosition = 0 ∧ m2.bitMask = startByteMask) := by
  constructor
  · exact decodeLoop_none_iff src (m.reset 0) 0
  · intro p t rest hsrc hp ht
    have hz : ∀ j, 0 ≤ j → (m.reset 0).bits j = 0 := fun j _ => rfl
    obtain ⟨m2, hloop, hbits, hpos, hmask⟩ :=
      decodeLoop_spec p t rest (m.reset 0) 0 hp ht (Nat.zero_le _) hz
    refine ⟨m2, ?_, ?_, ?_, hpos, hmask⟩
    · rw [PresenceMap.decode, hsrc]
      exact hloop
    · intro j
      rw [hbits j]
      simp
    · have hlen : (p ++ [t]).getD p.length 0 = t := by
        rw [List.getD_append_right _ _ _ _ (Nat.le_refl _)]
        simp
      rw [hbits p.length]
      simp only [Nat.not_lt_zero, if_false, Nat.sub_zero]
      rw [hlen]
      exact ht

/-- Witness for C7 at the concrete source 0x05 0xC0: one data byte, then
the terminator. -/
theorem decode_characterization_witness :
    ∃ m2, PresenceMap.decode [5, 192] (PresenceMap.init 0) = some m2 ∧
      (∀ j, m2.bits j = ([5, 192] : List Nat).getD j 0) ∧
      m2.bits 1 &&& stopBit ≠ 0 ∧
      m2.bytePosition = 0 ∧ m2.bitMask = startByteMask :=
  (decode_characterization [5, 192] (PresenceMap.init 0)).2 [5] 192 []
    rfl (by decide) (by decide)

lemma readBits_eq_map (k : Nat) :
    ∀ (m : PresenceMap) (n : Nat),
      m.bytePosition = n / 7 → m.bitMask = startByteMask >>> (n % 7) →
      PresenceMap.readBits k m = (List.range k).map (fun i => m.bitAt (n + i)) := by
  induction k with
  | zero =>
    intro m n hp hm
    rfl
  | succ k ih =>
    intro m n hp hm
    obtain ⟨hapos, hamask, habits, -⟩ := advance_at m n hp hm
    have hhead : (m.checkNextField).1 = m.bitAt n := by
      show decide (m.bits m.bytePosition &&& m.bitMask ≠ 0) = _
      rw [hp, hm]
      rfl
    have htail : (m.checkNextField).2 = m.advance := rfl
    have hbitAdv : ∀ i, m.advance.bitAt i = m.bitAt i := by
      intro i
      rw [bitAt_testBit, bitAt_testBit, habits]
    show (m.checkNextField).1 :: PresenceMap.readBits k (m.checkNextField).2 = _
    rw [hhead, htail, ih m.advance (n + 1) hapos hamask]
    rw [List.range_succ_eq_map, List.map_cons, List.map_map]
    congr 1
    refine List.map_congr_left ?_
    intro i hi
    show m.advance.bitAt (n + 1 + i) = m.bitAt (n + (i + 1))
    rw [hbitAdv]
    congr 1
    omega

lemma testBit_stopBit_lt7 : ∀ k < 7, (stopBit).testBit k = false := by decide

/-- C1: writing any non-empty bit sequence, encoding, and decoding the
emitted bytes into a fresh map reads back the same bit sequence for
positions 0..k. -/
theorem presenceMap_roundTrip (bs : List Bool) (hne : bs ≠ []) :
    (PresenceMap.decode
        ((PresenceMap.writeBits bs (PresenceMap.init bs.length)).encode)
        (PresenceMap.init 0)).map (PresenceMap.readBits bs.length) = some bs := by
  obtain ⟨g, -, W⟩ := writeBits_spec bs (PresenceMap.init bs.length) 0 (goodAt_init _)
  rw [Nat.zero_add] at g
  set m := PresenceMap.writeBits bs (PresenceMap.init bs.length) with hmdef
  have hn : 0 < bs.length := List.length_pos.2 hne
  obtain ⟨bpos, hout, hbeyond, hle⟩ := encode_spec m bs.length g hn
  have hp : ∀ x ∈ (List.range bpos).map m.bits, x &&& stopBit = 0 := by
    intro x hx
    rw [List.mem_map] at hx
    obtain ⟨j, -, rfl⟩ := hx
    exact and_stopBit_eq_zero (g.lt j)
  obtain ⟨m2, hdec, hbits, -, hpos2, hmask2⟩ :=
    (decode_characterization m.encode (PresenceMap.init 0)).2
      ((List.range bpos).map m.bits) (m.bits bpos ||| stopBit) []
      (by rw [hout]) hp (or_stopBit_and_ne _)
  rw [hdec]
  show some (PresenceMap.readBits bs.length m2) = some bs
  congr 1
  rw [readBits_eq_map bs.length m2 0 (by rw [hpos2]) (by rw [hmask2]; rfl)]
  refine List.ext_getElem (by simp) ?_
  intro i h1 h2
  simp only [List.getElem_map, List.getElem_range]
  rw [Nat.zero_add]
  have hW : m.bitAt i = bs[i] := by
    rw [W i (Nat.zero_le _) (by simpa using h2), Nat.sub_zero]
    exact List.getD_eq_getElem _ _ _
  have hr : i % 7 < 7 := Nat.mod_lt _ (by norm_num)
  rw [bitAt_testBit, hbits (i / 7)]
  rcases Nat.lt_trichotomy (i / 7) bpos with hj | hj | hj
  · rw [List.getD_append _ _ _ _ (by simpa using hj)]
    have : ((List.range bpos).map m.bits).getD (i / 7) 0 = m.bits (i / 7) := by
      rw [List.getD_eq_getElem _ _ (by simpa using hj)]
      simp
    rw [this, ← bitAt_testBit, hW]
  · rw [List.getD_append_right _ _ _ _ (by simp [hj])]
    have : i / 7 - ((List.range bpos).map m.bits).length = 0 := by simp [hj]
    rw [this]
    simp only [List.getD_cons_zero]
    rw [Nat.testBit_or, testBit_stopBit_lt7 _ (by omega), Bool.or_false, ← hj,
      ← bitAt_testBit, hW]
  · have hlen : ((List.range bpos).map m.bits ++ [m.bits bpos ||| stopBit]).length ≤ i / 7 := by
      simp
      omega
    rw [List.getD_eq_default _ _ hlen]
    have hz : m.bits (i / 7) = 0 := hbeyond _ hj
    rw [← hW, bitAt_testBit, hz]

/-- Witness for C1 at the spec's scenario S1: the three bits T F T decode
back from the single byte 0xD0. -/
theorem presenceMap_roundTrip_witness :
    (PresenceMap.decode
        ((PresenceMap.writeBits [true, false, true] (PresenceMap.init 3)).encode)
        (PresenceMap.init 0)).map (PresenceMap.readBits 3)
      = some [true, false, true] :=
  presenceMap_roundTrip [true, false, true] (by simp)

/-- C3: the failing input for reset's capacity computation.  A map whose
capacity is the default 16 bytes is reset for 120 bits: reset computes
(120 + 7) / 8 = 15 bytes, which is not more than 16, so the capacity stays
16 — yet 120 bits occupy ceil(120 / 7) = 18 bytes (bit N lives at byte
N / 7), and indeed writing the 120 bits grows the buffer to 18 bytes.  The
constructor sizes the same request as (120 + 6) / 7 = 18. -/
theorem reset_capacity_shortfall :
    ((PresenceMap.init 1).reset 120).byteCapacity = 16 ∧
    (120 + 6) / 7 = 18 ∧
    ((PresenceMap.init 1).byteCapacity = 16 ∧ max defaultByteCapacity ((120 + 6) / 7) = 18) ∧
    (PresenceMap.writeBits (List.replicate 120 true) ((PresenceMap.init 1).reset 120)).byteCapacity = 18 := by
  refine ⟨rfl, rfl, ⟨rfl, rfl⟩, ?_⟩
  decide

/-! Facts about the equality operator and its cursor-consumed-bits mask. -/

lemma maskToBitNumber_startMask : ∀ r < 7, maskToBitNumber (startByteMask >>> r) = r := by
  decide

lemma startMask_inj : ∀ r1 < 7, ∀ r2 < 7,
    startByteMask >>> r1 = startByteMask >>> r2 → r1 = r2 := by
  decide

lemma singleBitMask_cases : ∀ bitMask, singleBitMask bitMask →
    ∃ r, r < 7 ∧ bitMask = startByteMask >>> r := by
  intro bitMask h
  simp only [singleBitMask, List.mem_cons, List.not_mem_nil, or_false] at h
  rcases h with h | h | h | h | h | h | h <;> subst h
  · exact ⟨0, by omega, by decide⟩
  · exact ⟨1, by omega, by decide⟩
  · exact ⟨2, by omega, by decide⟩
  · exact ⟨3, by omega, by decide⟩
  · exact ⟨4, by omega, by decide⟩
  · exact ⟨5, by omega, by decide⟩
  · exact ⟨6, by omega, by decide⟩

lemma eqMask_testBit_lt : ∀ r < 7, ∀ k < 8,
    (eqMask (startByteMask >>> r)).testBit k = decide (7 - r ≤ k ∧ k ≤ 6) := by
  decide

lemma eqMask_testBit (r k : Nat) (hr : r < 7) :
    (eqMask (startByteMask >>> r)).testBit k = decide (7 - r ≤ k ∧ k ≤ 6) := by
  by_cases hk : k < 8
  · exact eqMask_testBit_lt r hr k hk
  · have h1 : eqMask (startByteMask >>> r) < 2 ^ k := by
      have h2 : eqMask (startByteMask >>> r) ≤ dataBits := Nat.and_le_right
      have h3 : (128 : Nat) ≤ 2 ^ k :=
        calc (128 : Nat) = 2 ^ 7 := by norm_num
        _ ≤ 2 ^ k := Nat.pow_le_pow_right (by norm_num) (by omega)
      unfold dataBits at h2
      omega
    rw [Nat.testBit_lt_two_pow h1]
    exact (decide_eq_false (by omega : ¬ (7 - r ≤ k ∧ k ≤ 6))).symm

lemma pmEq_iff (a b : PresenceMap) :
    a.pmEq b = true ↔
      (a.bytePosition = b.bytePosition ∧ a.bitMask = b.bitMask ∧
        (∀ p, p < a.bytePosition → a.bits p = b.bits p) ∧
        (a.bits a.bytePosition ^^^ b.bits b.bytePosition) &&& eqMask a.bitMask = 0) := by
  unfold PresenceMap.pmEq
  split_ifs with h1 h2 h3
  · simp only [Bool.false_eq_true, false_iff]
    rintro ⟨hp, -, -, -⟩
    exact h1 hp
  · simp only [Bool.false_eq_true, false_iff]
    rintro ⟨-, hm, -, -⟩
    exact h2 hm
  · simp only [Bool.false_eq_true, false_iff]
    rw [List.any_eq_true] at h3
    obtain ⟨p, hpmem, hpne⟩ := h3
    rintro ⟨-, -, hall, -⟩
    rw [List.mem_range] at hpmem
    exact (of_decide_eq_true hpne) (hall p hpmem)
  · rw [not_not] at h1 h2
    rw [Bool.not_eq_true, List.any_eq_false] at h3
    constructor
    · intro h
      refine ⟨h1, h2, ?_, of_decide_eq_true h⟩
      intro p hp
      have := h3 p (List.mem_range.2 hp)
      simpa using this
    · rintro ⟨-, -, -, hx⟩
      exact decide_eq_true hx

/-- A decoded-then-read map: buffer 0xC0 0x00 (stop bit kept on the first
byte), cursor at bit 8. -/
def pmA : PresenceMap :=
  { bits := fun j => if j = 0 then 192 else 0
    byteCapacity := 16
    bytePosition := 1
    bitMask := 32 }

/-- A written map with the same logical bits: buffer 0x40 0x00, cursor at
bit 8. -/
def pmB : PresenceMap :=
  { bits := fun j => if j = 0 then 64 else 0
    byteCapacity := 16
    bytePosition := 1
    bitMask := 32 }

/-- C4 counterexample: two maps satisfying the single-bit invariant that
yield identical bit sequences up to their (equal) cursors, yet compare
unequal, because operator== compares the consumed full bytes with all
eight bits and pmA carries a stop bit retained by decode. -/
theorem pmEq_claim_counterexample :
    singleBitMask pmA.bitMask ∧ singleBitMask pmB.bitMask ∧
    PresenceMap.sameBitsToCursor pmA pmB ∧ pmA.pmEq pmB = false := by
  decide

/-- C4 as amended: for maps whose bitMask satisfies the single-bit invariant
and whose bytes before the cursor byte carry no stop bit (as is the case for
maps in accumulation, where the stop bit is never set), operator== returns
true iff the two maps yield the same bit sequence up to their cursors. -/
theorem pmEq_iff_sameBits (a b : PresenceMap)
    (ha : singleBitMask a.bitMask) (hb : singleBitMask b.bitMask)
    (ha2 : ∀ j, j < a.bytePosition → a.bits j < 128)
    (hb2 : ∀ j, j < b.bytePosition → b.bits j < 128) :
    a.pmEq b = true ↔ PresenceMap.sameBitsToCursor a b := by
  obtain ⟨ra, hra7, hmaska⟩ := singleBitMask_cases a.bitMask ha
  obtain ⟨rb, hrb7, hmaskb⟩ := singleBitMask_cases b.bitMask hb
  have hcia : a.cursorIndex = 7 * a.bytePosition + ra := by
    unfold PresenceMap.cursorIndex
    rw [hmaska, maskToBitNumber_startMask ra hra7]
  have hcib : b.cursorIndex = 7 * b.bytePosition + rb := by
    unfold PresenceMap.cursorIndex
    rw [hmaskb, maskToBitNumber_startMask rb hrb7]
  rw [pmEq_iff]
  constructor
  · rintro ⟨h1, h2, h3, h4⟩
    have hrr : ra = rb := by
      refine startMask_inj ra hra7 rb hrb7 ?_
      rw [← hmaska, ← hmaskb]
      exact h2
    refine ⟨by rw [hcia, hcib, h1, hrr], ?_⟩
    intro i hi
    rw [hcia] at hi
    rw [bitAt_testBit, bitAt_testBit]
    rcases Nat.lt_or_ge (i / 7) a.bytePosition with hj | hj
    · rw [h3 _ hj]
    · have hj7 : i / 7 = a.bytePosition := by omega
      have hir : i % 7 < ra := by omega
      have h4' := congrArg (fun z => z.testBit (6 - i % 7)) h4
      simp only [Nat.testBit_and, Nat.testBit_xor, Nat.zero_testBit] at h4'
      have he : (eqMask a.bitMask).testBit (6 - i % 7) = true := by
        rw [hmaska, eqMask_testBit ra _ hra7]
        have : 7 - ra ≤ 6 - i % 7 ∧ 6 - i % 7 ≤ 6 := by omega
        simp [this]
      rw [he, Bool.and_true] at h4'
      rw [hj7]
      rw [← h1] at h4'
      rcases hx : (a.bits a.bytePosition).testBit (6 - i % 7) with _ | _ <;>
        rcases hy : (b.bits a.bytePosition).testBit (6 - i % 7) with _ | _ <;>
        rw [hx, hy] at h4' <;> simp_all
  · rintro ⟨hci, hbits⟩
    rw [hcia, hcib] at hci
    have hrr : ra = rb := by omega
    have hpos : a.bytePosition = b.bytePosition := by omega
    have hmaskeq : a.bitMask = b.bitMask := by rw [hmaska, hmaskb, hrr]
    refine ⟨hpos, hmaskeq, ?_, ?_⟩
    · intro p hp
      refine Nat.eq_of_testBit_eq ?_
      intro k
      rcases Nat.lt_or_ge k 7 with hk | hk
      · have hb' := hbits (7 * p + (6 - k)) (by rw [hcia]; omega)
        rw [bitAt_testBit, bitAt_testBit] at hb'
        have hdiv : (7 * p + (6 - k)) / 7 = p := by omega
        have hmod : (7 * p + (6 - k)) % 7 = 6 - k := by omega
        have h6k : 6 - (6 - k) = k := by omega
        rw [hdiv, hmod, h6k] at hb'
        exact hb'
      · have hx : (a.bits p).testBit k = false := by
          refine Nat.testBit_lt_two_pow ?_
          have := ha2 p hp
          have h128 : (128 : Nat) ≤ 2 ^ k :=
            calc (128 : Nat) = 2 ^ 7 := by norm_num
            _ ≤ 2 ^ k := Nat.pow_le_pow_right (by norm_num) (by omega)
          omega
        have hy : (b.bits p).testBit k = false := by
          refine Nat.testBit_lt_two_pow ?_
          have := hb2 p (by omega)
          have h128 : (128 : Nat) ≤ 2 ^ k :=
            calc (128 : Nat) = 2 ^ 7 := by norm_num
            _ ≤ 2 ^ k := Nat.pow_le_pow_right (by norm_num) (by omega)
          omega
        rw [hx, hy]
    · refine Nat.eq_of_testBit_eq ?_
      intro k
      rw [Nat.testBit_and, Nat.testBit_xor, Nat.zero_testBit]
      by_cases hk : 7 - ra ≤ k ∧ k ≤ 6
      · have he : (eqMask a.bitMask).testBit k = true := by
          rw [hmaska, eqMask_testBit ra _ hra7]
          simp [hk]
        rw [he, Bool.and_true]
        have hb' := hbits (7 * a.bytePosition + (6 - k)) (by rw [hcia]; omega)
        rw [bitAt_testBit, bitAt_testBit] at hb'
        have hdiv : (7 * a.bytePosition + (6 - k)) / 7 = a.bytePosition := by omega
        have hmod : (7 * a.bytePosition + (6 - k)) % 7 = 6 - k := by omega
        have h6k : 6 - (6 - k) = k := by omega
        rw [hdiv, hmod, h6k] at hb'
        rw [← hpos, hb']
        simp
      · have he : (eqMask a.bitMask).testBit k = false := by
          rw [hmaska, eqMask_testBit ra _ hra7]
          exact decide_eq_false hk
        rw [he, Bool.and_false]

/-- Witness for the amended C4 at a concrete pair of accumulation maps. -/
theorem pmEq_iff_sameBits_witness :
    pmB.pmEq pmB = true ↔ PresenceMap.sameBitsToCursor pmB pmB :=
  pmEq_iff_sameBits pmB pmB (by decide) (by decide) (by decide) (by decide)

namespace MulticastReceiver

lemma startReceive_fields (s : RState) :
    (startReceive s).1.stopping = s.stopping ∧
    (startReceive s).1.queue = s.queue ∧
    (startReceive s).1.serviceInProgress = s.serviceInProgress ∧
    (startReceive s).1.packetsReceived = s.packetsReceived ∧
    (startReceive s).1.errorPackets = s.errorPackets ∧
    (startReceive s).1.emptyPackets = s.emptyPackets ∧
    (startReceive s).1.packetsQueued = s.packetsQueued ∧
    (startReceive s).1.packetsProcessed = s.packetsProcessed ∧
    (startReceive s).1.bytesProcessed = s.bytesProcessed := by
  unfold startReceive
  split
  · split
    · exact ⟨rfl, rfl, rfl, rfl, rfl, rfl, rfl, rfl, rfl⟩
    · exact ⟨rfl, rfl, rfl, rfl, rfl, rfl, rfl, rfl, rfl⟩
  · exact ⟨rfl, rfl, rfl, rfl, rfl, rfl, rfl, rfl, rfl⟩

lemma startReceive_events (s : RState) :
    ∀ e ∈ (startReceive s).2, (∃ id, e = REvent.postReceive id) ∨ e = REvent.noBuffer := by
  unfold startReceive
  split
  · split
    · intro e he
      rename_i b rest heq
      simp only [List.mem_singleton] at he
      exact Or.inl ⟨b.id, he⟩
    · intro e he
      simp only [List.mem_singleton] at he
      exact Or.inr he
  · intro e he
    simp at he

lemma stopCalled_not_mem_startReceive (s : RState) :
    REvent.stopCalled ∉ (startReceive s).2 := by
  intro h
  rcases startReceive_events s _ h with ⟨id, hid⟩ | hnb
  · cases hid
  · cases hnb

lemma receiverStarted_not_mem_startReceive (s : RState) :
    REvent.receiverStarted ∉ (startReceive s).2 := by
  intro h
  rcases startReceive_events s _ h with ⟨id, hid⟩ | hnb
  · cases hid
  · cases hnb

/-- C10: a buffer drained from the service queue while the stopping flag is
set is still counted in packetsProcessed, but the consumer is not invoked,
bytesProcessed is not advanced, and the buffer is not collected for return
to the idle pool (the whole drain emits no calls and collects nothing). -/
theorem drainLoop_stopping (oracle : Nat → ConsumerAnswer) (q : List Buf)
    (s : RState) (h : s.stopping = true) :
    drainLoop oracle q s =
      ({ s with packetsProcessed := s.packetsProcessed + q.length }, [], []) := by
  induction q generalizing s with
  | nil => rfl
  | cons b rest ih =>
    simp only [drainLoop]
    try dsimp only
    rw [if_pos h]
    rw [ih { s with packetsProcessed := s.packetsProcessed + 1 } h]
    have harith : s.packetsProcessed + 1 + rest.length
        = s.packetsProcessed + (rest.length + 1) := by omega
    rw [harith]
    rfl

/-- Witness for C10 with one queued buffer and a stopping receiver. -/
theorem drainLoop_stopping_witness :
    drainLoop (fun _ => ConsumerAnswer.ok) [Buf.mk 0 16 10]
        { initRState with stopping := true }
      = ({ initRState with stopping := true, packetsProcessed := 1 }, [], []) :=
  drainLoop_stopping (fun _ => ConsumerAnswer.ok) [Buf.mk 0 16 10]
    { initRState with stopping := true } rfl

/-- C9: on an error completion, handleReceive counts the error packet,
pushes the buffer back to the idle pool before consulting the consumer,
reports the communication error, and calls stop() exactly when the
consumer's reportCommunicationError answer is false. -/
theorem handleReceive_error_spec (bytes : Nat) (commOk : Bool)
    (oracle : Nat → ConsumerAnswer) (buffer : Buf) (s : RState) :
    (handleReceive true bytes commOk oracle buffer s).1.errorPackets
        = s.errorPackets + 1 ∧
    REvent.pushIdle buffer.id ∈ (handleReceive true bytes commOk oracle buffer s).2 ∧
    REvent.reportCommunicationError ∈ (handleReceive true bytes commOk oracle buffer s).2 ∧
    (REvent.stopCalled ∈ (handleReceive true bytes commOk oracle buffer s).2
      ↔ commOk = false) ∧
    (handleReceive true bytes commOk oracle buffer s).1.stopping
        = (s.stopping || !commOk) := by
  unfold handleReceive
  simp only [not_true, if_false]
  cases commOk with
  | true =>
    try dsimp only
    refine ⟨?_, ?_, ?_, ?_, ?_⟩
    · exact (startReceive_fields _).2.2.2.2.1
    · simp
    · simp
    · simp only [List.mem_cons, List.mem_append, List.not_mem_nil]
      constructor
      · rintro (h | h | h | h)
        · cases h
        · cases h
        · cases h
        · exact absurd h (stopCalled_not_mem_startReceive _)
      · intro h
        cases h
    · rw [(startReceive_fields _).1]
      simp
  | false =>
    try dsimp only [stop]
    refine ⟨?_, ?_, ?_, ?_, ?_⟩
    · exact (startReceive_fields _).2.2.2.2.1
    · simp
    · simp
    · simp
    · rw [(startReceive_fields _).1]
      simp

lemma drainLoop_master (oracle : Nat → ConsumerAnswer) (q : List Buf) :
    ∀ s : RState,
      (drainLoop oracle q s).1.packetsReceived = s.packetsReceived ∧
      (drainLoop oracle q s).1.packetsQueued = s.packetsQueued ∧
      (drainLoop oracle q s).1.emptyPackets = s.emptyPackets ∧
      (drainLoop oracle q s).1.errorPackets = s.errorPackets ∧
      (drainLoop oracle q s).1.packetsProcessed = s.packetsProcessed + q.length ∧
      (drainLoop oracle q s).1.queue = s.queue ∧
      (drainLoop oracle q s).1.serviceInProgress = s.serviceInProgress ∧
      (drainLoop oracle q s).1.readInProgress = s.readInProgress ∧
      (drainLoop oracle q s).1.inFlight = s.inFlight ∧
      (drainLoop oracle q s).1.idlePool = s.idlePool := by
  induction q with
  | nil =>
    intro s
    exact ⟨rfl, rfl, rfl, rfl, by simp [drainLoop], rfl, rfl, rfl, rfl, rfl⟩
  | cons b rest ih =>
    intro s
    simp only [drainLoop]
    try dsimp only
    by_cases hstop : s.stopping = true
    · rw [if_pos hstop]
      obtain ⟨h1, h2, h3, h4, h5, h6, h7, h8, h9, h10⟩ :=
        ih { s with packetsProcessed := s.packetsProcessed + 1 }
      refine ⟨h1, h2, h3, h4, ?_, h6, h7, h8, h9, h10⟩
      rw [h5]
      show s.packetsProcessed + 1 + rest.length = s.packetsProcessed + (rest.length + 1)
      omega
    · rw [if_neg hstop]
      rcases ho : oracle s.packetsProcessed with _ | _ | _ | _
      · simp only [ho]
        obtain ⟨h1, h2, h3, h4, h5, h6, h7, h8, h9, h10⟩ :=
          ih { s with packetsProcessed := s.packetsProcessed + 1,
                      bytesProcessed := s.bytesProcessed + b.used }
        refine ⟨h1, h2, h3, h4, ?_, h6, h7, h8, h9, h10⟩
        rw [h5]
        show s.packetsProcessed + 1 + rest.length = s.packetsProcessed + (rest.length + 1)
        omega
      · simp only [ho, stop]
        obtain ⟨h1, h2, h3, h4, h5, h6, h7, h8, h9, h10⟩ :=
          ih { s with stopping := true,
                      packetsProcessed := s.packetsProcessed + 1,
                      bytesProcessed := s.bytesProcessed + b.used }
        refine ⟨h1, h2, h3, h4, ?_, h6, h7, h8, h9, h10⟩
        rw [h5]
        show s.packetsProcessed + 1 + rest.length = s.packetsProcessed + (rest.length + 1)
        omega
      · simp only [ho]
        obtain ⟨h1, h2, h3, h4, h5, h6, h7, h8, h9, h10⟩ :=
          ih { s with packetsProcessed := s.packetsProcessed + 1,
                      bytesProcessed := s.bytesProcessed + b.used }
        refine ⟨h1, h2, h3, h4, ?_, h6, h7, h8, h9, h10⟩
        rw [h5]
        show s.packetsProcessed + 1 + rest.length = s.packetsProcessed + (rest.length + 1)
        omega
      · simp only [ho, stop]
        obtain ⟨h1, h2, h3, h4, h5, h6, h7, h8, h9, h10⟩ :=
          ih { s with stopping := true,
                      packetsProcessed := s.packetsProcessed + 1,
                      bytesProcessed := s.bytesProcessed + b.used }
        refine ⟨h1, h2, h3, h4, ?_, h6, h7, h8, h9, h10⟩
        rw [h5]
        show s.packetsProcessed + 1 + rest.length = s.packetsProcessed + (rest.length + 1)
        omega

lemma serviceBatch_spec (oracle : Nat → ConsumerAnswer) (s : RState) :
    (serviceBatch oracle s).1.packetsReceived = s.packetsReceived ∧
    (serviceBatch oracle s).1.packetsQueued = s.packetsQueued ∧
    (serviceBatch oracle s).1.emptyPackets = s.emptyPackets ∧
    (serviceBatch oracle s).1.errorPackets = s.errorPackets ∧
    (serviceBatch oracle s).1.packetsProcessed = s.packetsProcessed + s.queue.length ∧
    (serviceBatch oracle s).1.queue = [] ∧
    (serviceBatch oracle s).1.serviceInProgress = false := by
  unfold serviceBatch
  try dsimp only
  obtain ⟨d1, d2, d3, d4, d5, d6, d7, d8, d9, d10⟩ :=
    drainLoop_master oracle s.queue
      { s with batchesProcessed := s.batchesProcessed + 1, queue := [] }
  obtain ⟨f1, f2, f3, f4, f5, f6, f7, f8, f9⟩ :=
    startReceive_fields
      { (drainLoop oracle s.queue
          { s with batchesProcessed := s.batchesProcessed + 1, queue := [] }).1 with
        idlePool := (drainLoop oracle s.queue
          { s with batchesProcessed := s.batchesProcessed + 1, queue := [] }).2.1.foldl
            (fun pool b => b :: pool)
            (drainLoop oracle s.queue
              { s with batchesProcessed := s.batchesProcessed + 1, queue := [] }).1.idlePool }
  refine ⟨?_, ?_, ?_, ?_, ?_, ?_, rfl⟩
  · rw [f4]; exact d1
  · rw [f7]; exact d2
  · rw [f6]; exact d3
  · rw [f5]; exact d4
  · rw [f8]; exact d5
  · rw [f2]; exact d6

/-- The quiescent invariant of the sequential receiver model. -/
def Inv (s : RState) : Prop :=
  s.packetsReceived = s.packetsQueued + s.emptyPackets + s.errorPackets ∧
  s.packetsProcessed = s.packetsQueued ∧
  s.queue = [] ∧
  s.serviceInProgress = false

lemma handleReceive_inv (error : Bool) (bytes : Nat) (commOk : Bool)
    (oracle : Nat → ConsumerAnswer) (buffer : Buf) (s : RState) (h : Inv s) :
    Inv (handleReceive error bytes commOk oracle buffer s).1 := by
  obtain ⟨hc, hp, hq, hs⟩ := h
  unfold handleReceive
  cases error with
  | true =>
    simp only [not_true, if_false]
    cases commOk with
    | true =>
      try dsimp only
      obtain ⟨f1, f2, f3, f4, f5, f6, f7, f8, f9⟩ := startReceive_fields _
      refine ⟨?_, ?_, ?_, ?_⟩
      · rw [f4, f7, f6, f5]
        show s.packetsReceived + 1 = s.packetsQueued + s.emptyPackets + (s.errorPackets + 1)
        omega
      · rw [f8, f7]; exact hp
      · rw [f2]; exact hq
      · rw [f3]; exact hs
    | false =>
      try dsimp only [stop]
      obtain ⟨f1, f2, f3, f4, f5, f6, f7, f8, f9⟩ := startReceive_fields _
      refine ⟨?_, ?_, ?_, ?_⟩
      · rw [f4, f7, f6, f5]
        show s.packetsReceived + 1 = s.packetsQueued + s.emptyPackets + (s.errorPackets + 1)
        omega
      · rw [f8, f7]; exact hp
      · rw [f2]; exact hq
      · rw [f3]; exact hs
  | false =>
    rw [if_pos (show ¬ (false = true) by simp)]
    by_cases hb : bytes > 0
    · rw [if_pos hb]
      try dsimp only
      rw [hs]
      rw [if_pos (show ¬ (false = true) by simp)]
      set s3 : RState :=
        { s with
          readInProgress := false
          inFlight := none
          packetsReceived := s.packetsReceived + 1
          packetsQueued := s.packetsQueued + 1
          bytesReceived := s.bytesReceived + bytes
          largestPacket := max s.largestPacket bytes
          queue := s.queue ++ [{ buffer with used := bytes }]
          serviceInProgress := true } with hs3
      rw [if_pos (show ¬ (false = true) by simp)]
      try dsimp only
      obtain ⟨f1, f2, f3, f4, f5, f6, f7, f8, f9⟩ := startReceive_fields s3
      obtain ⟨b1, b2, b3, b4, b5, b6, b7⟩ := serviceBatch_spec oracle (startReceive s3).1
      refine ⟨?_, ?_, b6, b7⟩
      · rw [b1, b2, b3, b4, f4, f7, f6, f5]
        show s.packetsReceived + 1
            = (s.packetsQueued + 1) + s.emptyPackets + s.errorPackets
        omega
      · rw [b5, b2, f8, f7, f2]
        show s.packetsProcessed + s3.queue.length = s.packetsQueued + 1
        have hlen : s3.queue.length = s.queue.length + 1 := by
          rw [hs3]
          simp
        rw [hlen, hq]
        simp only [List.length_nil]
        omega
    · rw [if_neg hb]
      try dsimp only
      obtain ⟨f1, f2, f3, f4, f5, f6, f7, f8, f9⟩ := startReceive_fields _
      refine ⟨?_, ?_, ?_, ?_⟩
      · rw [f4, f7, f6, f5]
        show s.packetsReceived + 1 = s.packetsQueued + (s.emptyPackets + 1) + s.errorPackets
        omega
      · rw [f8, f7]; exact hp
      · rw [f2]; exact hq
      · rw [f3]; exact hs

lemma start_inv (bufferSize bufferCount : Nat) (wantLog : Bool) :
    Inv (start bufferSize bufferCount wantLog).1 := by
  unfold start
  try dsimp only
  obtain ⟨f1, f2, f3, f4, f5, f6, f7, f8, f9⟩ := startReceive_fields _
  refine ⟨?_, ?_, ?_, ?_⟩
  · rw [f4, f7, f6, f5]
    rfl
  · rw [f8, f7]
    rfl
  · rw [f2]
    rfl
  · rw [f3]
    rfl

lemma run_inv (cs : List Completion) :
    ∀ s : RState, Inv s → Inv (run s cs) := by
  induction cs with
  | nil => intro s h; exact h
  | cons c rest ih =>
    intro s h
    refine ih _ ?_
    unfold step
    rcases hf : s.inFlight with _ | b
    · exact h
    · exact handleReceive_inv c.error c.bytesReceived c.commOk c.oracle b s h

/-- C8: after any sequence of completed receives from a started receiver the
counters satisfy conservation, packetsProcessed never exceeds packetsQueued,
and the two agree at quiescence when the receiver is not stopping. -/
theorem run_counter_conservation (bufferSize bufferCount : Nat) (wantLog : Bool)
    (cs : List Completion) :
    (run (start bufferSize bufferCount wantLog).1 cs).packetsReceived
        = (run (start bufferSize bufferCount wantLog).1 cs).packetsQueued
          + (run (start bufferSize bufferCount wantLog).1 cs).emptyPackets
          + (run (start bufferSize bufferCount wantLog).1 cs).errorPackets ∧
    (run (start bufferSize bufferCount wantLog).1 cs).packetsProcessed
        ≤ (run (start bufferSize bufferCount wantLog).1 cs).packetsQueued ∧
    ((run (start bufferSize bufferCount wantLog).1 cs).stopping = false →
      (run (start bufferSize bufferCount wantLog).1 cs).packetsProcessed
        = (run (start bufferSize bufferCount wantLog).1 cs).packetsQueued) := by
  obtain ⟨h1, h2, -, -⟩ :=
    run_inv cs (start bufferSize bufferCount wantLog).1
      (start_inv bufferSize bufferCount wantLog)
  exact ⟨h1, Nat.le_of_eq h2, fun _ => h2⟩

/-- Witness for C8: one successful 10-byte completion after starting with
two 64-byte buffers. -/
theorem run_counter_conservation_witness :
    (run (start 64 2 false).1 [Completion.mk false 10 true (fun _ => ConsumerAnswer.ok)]).packetsReceived
        = (run (start 64 2 false).1 [Completion.mk false 10 true (fun _ => ConsumerAnswer.ok)]).packetsQueued
          + (run (start 64 2 false).1 [Completion.mk false 10 true (fun _ => ConsumerAnswer.ok)]).emptyPackets
          + (run (start 64 2 false).1 [Completion.mk false 10 true (fun _ => ConsumerAnswer.ok)]).errorPackets ∧
    (run (start 64 2 false).1 [Completion.mk false 10 true (fun _ => ConsumerAnswer.ok)]).packetsProcessed
        ≤ (run (start 64 2 false).1 [Completion.mk false 10 true (fun _ => ConsumerAnswer.ok)]).packetsQueued ∧
    ((run (start 64 2 false).1 [Completion.mk false 10 true (fun _ => ConsumerAnswer.ok)]).stopping = false →
      (run (start 64 2 false).1 [Completion.mk false 10 true (fun _ => ConsumerAnswer.ok)]).packetsProcessed
        = (run (start 64 2 false).1 [Completion.mk false 10 true (fun _ => ConsumerAnswer.ok)]).packetsQueued) :=
  run_counter_conservation 64 2 false [Completion.mk false 10 true (fun _ => ConsumerAnswer.ok)]

/-- C2 counterexample: in the start trace, receiverStarted is called before
the multicast group is joined, refuting the claim that it comes after the
join. -/
theorem receiverStarted_before_join :
    (startTrace 1600 2 false).indexOf REvent.receiverStarted
        < (startTrace 1600 2 false).indexOf REvent.joinGroup ∧
    ¬ ((startTrace 1600 2 false).indexOf REvent.joinGroup
        < (startTrace 1600 2 false).indexOf REvent.receiverStarted) := by
  decide

/-- C2 as amended: during start, receiverStarted is invoked exactly once,
after the socket is bound, before the multicast group is joined, and before
the first asynchronous receive is posted. -/
theorem start_receiverStarted_ordering (bufferSize bufferCount : Nat) (wantLog : Bool) :
    ∃ pre post,
      startTrace bufferSize bufferCount wantLog
        = pre ++ REvent.receiverStarted :: post ∧
      REvent.receiverStarted ∉ pre ∧
      REvent.receiverStarted ∉ post ∧
      REvent.bindSocket ∈ pre ∧
      REvent.joinGroup ∈ post ∧
      (∀ id, REvent.postReceive id ∉ pre) := by
  refine ⟨[REvent.socketOpen, REvent.setReuseAddress, REvent.bindSocket],
    (if wantLog then [REvent.logStartup] else [])
      ++ [REvent.joinGroup]
      ++ ((List.range bufferCount).map (fun i => Buf.mk i bufferSize 0)).map
          (fun b => REvent.pushIdle b.id)
      ++ (startReceive
          { initRState with
            idlePool := ((List.range bufferCount).map (fun i => Buf.mk i bufferSize 0)).foldl
              (fun pool b => b :: pool) [] }).2, ?_, ?_, ?_, ?_, ?_, ?_⟩
  · unfold startTrace start
    try dsimp only
    simp
  · simp
  · intro h
    simp only [List.mem_append] at h
    rcases h with ((h | h) | h) | h
    · split at h <;> simp at h
    · simp at h
    · simp at h
    · exact receiverStarted_not_mem_startReceive _ h
  · simp
  · simp
  · intro id
    simp

end MulticastReceiver

end QuickFAST
